import Mathlib

/-!
Verification of the requirement-graph manager and installation scheduler
found in `src/pip/req/req_set.py`.

Python objects are modelled with explicit object identities: a requirement
entity is referenced by a `Nat` id, and the mutable heap is a function
`Nat → Entity`.  Raised exceptions are modelled by returning the (possibly
already mutated) state together with an `Except` value, matching Python's
semantics where mutations performed before a `raise` survive the exception.
-/

namespace PipReq

/-! ### Generic association-list and list helpers -/

/-- Lookup in an association list (models Python `dict` reads; `none`
models a `KeyError`). -/
def lookupKV {α β : Type} [DecidableEq α] : List (α × β) → α → Option β
  | [], _ => none
  | (k, v) :: rest, a => if k = a then some v else lookupKV rest a

/-- Update or insert in an association list (models Python `dict.__setitem__`). -/
def setKV {α β : Type} [DecidableEq α] : List (α × β) → α → β → List (α × β)
  | [], a, b => [(a, b)]
  | (k, v) :: rest, a, b => if k = a then (a, b) :: rest else (k, v) :: setKV rest a b

/-- Index of the first occurrence of `a` in `l` (length of `l` if absent). -/
def pos (l : List Nat) (a : Nat) : Nat :=
  match l with
  | [] => 0
  | x :: xs => if x = a then 0 else pos xs a + 1

/-- Lexicographic comparison of character lists by code point (models the
ordering Python's `sorted` uses on strings). -/
def charsLe : List Char → List Char → Bool
  | [], _ => true
  | _ :: _, [] => false
  | c :: cs, d :: ds =>
    if c.toNat < d.toNat then true
    else if d.toNat < c.toNat then false
    else charsLe cs ds

/-- Lexicographic string comparison. -/
def strLeb (a b : String) : Bool := charsLe a.data b.data

/-- Insert a string into a (sorted) list, keeping order. -/
def insertSorted (x : String) : List String → List String
  | [] => [x]
  | y :: ys => if strLeb x y then x :: y :: ys else y :: insertSorted x ys

/-- Insertion sort on strings. -/
def sortStrings : List String → List String
  | [] => []
  | x :: xs => insertSorted x (sortStrings xs)

/-- Models Python `tuple(sorted(set(a).union(set(b))))` from the promotion
branch of `add_requirement`. -/
def extrasUnion (a b : List String) : List String :=
  sortStrings (List.dedup (a ++ b))

/-! ### Data model -/

/-- A resolved source location (`install_req.link`).  `is_wheel` and
`wheel_supported` model the external `Link.is_wheel` / `Wheel.supported()`
collaborators used by the platform-compatibility check. -/
structure Link where
  path : String
  filename : String
  is_wheel : Bool
  wheel_supported : Bool
deriving DecidableEq, Repr

/-- The fields of an `InstallRequirement` that `req_set.py` reads or writes.
`match_markers` models the external marker-evaluation method; `satisfied_by`
and `conflicts_with` record only the truthiness the code branches on;
`install_raises` and `install_succeeded` model the behaviour of the external
`install()` capability (whether it raises, and the value of the
`install_succeeded` flag observed afterwards). -/
structure Entity where
  name : String
  specifier : String
  extras : List String
  match_markers : Option (List String) → Bool
  link : Option Link
  constraint : Bool
  is_direct : Bool
  satisfied_by : Bool
  conflicts_with : Bool
  install_raises : Bool
  install_succeeded : Bool
  use_user_site : Bool
  target_dir : Option String
  pycompile : Bool

/-- The `InstallationError` / `KeyError` raises of `req_set.py`. -/
inductive PipError where
  | unsupportedWheel (filename : String)
  | doubleRequirement (name : String)
  | constraintConflict (name : String)
  | keyError (name : String)
deriving DecidableEq, Repr

/-- The ordered name-keyed `Requirements` container (`_keys` plus `_dict`,
with values referenced by entity id). -/
structure Requirements where
  keys : List String
  dict : List (String × Nat)
deriving DecidableEq, Repr

/-- `Requirements.values`: entities in key-insertion order. -/
def Requirements.values (r : Requirements) : List Nat :=
  r.keys.filterMap (fun k => lookupKV r.dict k)

/-- `Requirements.__setitem__`. -/
def Requirements.setItem (r : Requirements) (k : String) (v : Nat) : Requirements :=
  { keys := if r.keys.contains k then r.keys else r.keys ++ [k],
    dict := setKV r.dict k v }

/-- The mutable state of a `RequirementSet`: the entity heap plus the fields
of the Python object that `add_requirement`, `_to_install` and `install`
touch. -/
structure RequirementSet where
  store : Nat → Entity
  requirements : Requirements
  requirement_aliases : List (String × String)
  unnamed_requirements : List Nat
  reqs_to_cleanup : List Nat
  dependencies : List (Nat × List Nat)
  use_user_site : Bool
  target_dir : Option String
  pycompile : Bool

/-- Heap update at one object id. -/
def storeSet (st : Nat → Entity) (i : Nat) (e : Entity) : Nat → Entity :=
  fun j => if j = i then e else st j

/-- `self._dependencies[req]` (a `defaultdict(list)` read). -/
def depsOf (deps : List (Nat × List Nat)) (i : Nat) : List Nat :=
  (lookupKV deps i).getD []

/-- `self._dependencies[parent].append(child)`. -/
def depAppend (deps : List (Nat × List Nat)) (p c : Nat) : List (Nat × List Nat) :=
  match lookupKV deps p with
  | some l => setKV deps p (l ++ [c])
  | none => deps ++ [(p, [c])]

/-! ### `get_requirement` -/

/-- One iteration of the lookup loop in `get_requirement`: exact key in the
primary mapping, then through the alias table.  `none` models `KeyError`. -/
def lookupName (s : RequirementSet) (n : String) : Option Nat :=
  if s.requirements.keys.contains n then lookupKV s.requirements.dict n
  else
    match lookupKV s.requirement_aliases n with
    | some real => lookupKV s.requirements.dict real
    | none => none

/-- `RequirementSet.get_requirement`: try the name as given, then its
lowercase form; `none` models the final `KeyError`. -/
def RequirementSet.get_requirement (s : RequirementSet) (pname : String) : Option Nat :=
  match lookupName s pname with
  | some i => some i
  | none => lookupName s pname.toLower

/-! ### `add_requirement` -/

/-- The platform-compatibility check: `install_req.link and
install_req.link.is_wheel` and `not Wheel(...).supported()`. -/
def wheelUnsupported : Option Link → Bool
  | some l => l.is_wheel && !l.wheel_supported
  | none => false

/-- The condition guarding the Constraint-Conflict raise:
`install_req.link and not (existing_req.link and
install_req.link.path == existing_req.link.path)`. -/
def linkConflict : Option Link → Option Link → Bool
  | some il, some el => !(decide (il.path = el.path))
  | some _, none => true
  | none, _ => false

/-- The trailing edge-recording block of `add_requirement`
(`if parent_req_name: parent_req = self.get_requirement(...); append`).
`curId` is the canonical (possibly merged) entity. -/
def finishEdge (s : RequirementSet) (curId : Nat) (result : List Nat) :
    Option String → RequirementSet × Except PipError (List Nat)
  | none => (s, .ok result)
  | some p =>
    if p = "" then (s, .ok result)
    else
      match s.get_requirement p with
      | none => (s, .error (.keyError p))
      | some pid =>
        ({ s with dependencies := depAppend s.dependencies pid curId }, .ok result)

/-- The inherited-settings mutation performed on every admitted entity
(`install_req.use_user_site = ...` through `install_req.is_direct = ...`). -/
def inherit (s : RequirementSet) (e : Entity) (parent_req_name : Option String) : Entity :=
  { e with
    use_user_site := s.use_user_site
    target_dir := s.target_dir
    pycompile := s.pycompile
    is_direct := parent_req_name = none }

/-- `RequirementSet.add_requirement(install_req, parent_req_name,
extras_requested)`.  `rid` is the object identity of the incoming entity. -/
def RequirementSet.add_requirement (s : RequirementSet) (install_req : Entity)
    (rid : Nat) (parent_req_name : Option String)
    (extras_requested : Option (List String)) :
    RequirementSet × Except PipError (List Nat) :=
  let name := install_req.name
  if install_req.match_markers extras_requested = false then (s, .ok [])
  else if wheelUnsupported install_req.link = true then
    (s, .error (.unsupportedWheel ((install_req.link.map Link.filename).getD "")))
  else
    let install_req := inherit s install_req parent_req_name
    if name = "" then
      ({ s with store := storeSet s.store rid install_req,
                unnamed_requirements := s.unnamed_requirements ++ [rid] },
       .ok [rid])
    else
      match s.get_requirement name with
      | none =>
        let s1 := { s with
          store := storeSet s.store rid install_req,
          requirements := s.requirements.setItem name rid,
          requirement_aliases :=
            if name.toLower ≠ name
            then setKV s.requirement_aliases name.toLower name
            else s.requirement_aliases }
        finishEdge s1 rid [rid] parent_req_name
      | some exId =>
        let ex := s.store exId
        if parent_req_name = none ∧ ex.constraint = false ∧
            ex.extras = install_req.extras ∧ ¬ ex.specifier = install_req.specifier then
          (s, .error (.doubleRequirement name))
        else if install_req.constraint = false ∧ ex.constraint = true then
          if linkConflict install_req.link ex.link = true then
            ({ s with store := storeSet s.store rid install_req,
                      reqs_to_cleanup := s.reqs_to_cleanup ++ [rid] },
             .error (.constraintConflict name))
          else
            let ex' := { ex with constraint := false,
                                 extras := extrasUnion ex.extras install_req.extras }
            let s1 := { s with store := storeSet s.store exId ex' }
            finishEdge s1 exId [exId] parent_req_name
        else
          finishEdge s exId [] parent_req_name

/-- The promoted form of the existing entity (constraint cleared, extras
merged), as built in the promotion branch of `add_requirement`. -/
def promoted (s : RequirementSet) (exId : Nat) (e : Entity) : Entity :=
  { s.store exId with
    constraint := false
    extras := extrasUnion (s.store exId).extras e.extras }

/-- The state after in-place promotion of `exId`. -/
def promotedSet (s : RequirementSet) (exId : Nat) (e : Entity) : RequirementSet :=
  { s with store := storeSet s.store exId (promoted s exId e) }

/-! ### `_to_install` (the topological scheduler) -/

/-- The state captured by the `schedule` closure: the `order` accumulator
and the `ordered_reqs` visited set. -/
structure SchedSt where
  order : List Nat
  visited : List Nat
deriving DecidableEq, Repr

/-- `schedule(req)`: the recursive Python closure, embedded with a fuel
argument bounding the recursion depth (structural on the fuel, so the
definition computes); `bigFuel` below always suffices.  The
`for dep in self._dependencies[req]: schedule(dep)` loop is the fold. -/
def schedule (s : RequirementSet) : Nat → Nat → SchedSt → SchedSt
  | 0, _, st => st
  | fuel + 1, req, st =>
    if (s.store req).satisfied_by || st.visited.contains req then st
    else if (s.store req).constraint then st
    else
      let st2 := (depsOf s.dependencies req).foldl
        (fun acc d => schedule s fuel d acc) { st with visited := st.visited ++ [req] }
      { st2 with order := st2.order ++ [req] }

/-- A `for x in l: schedule(x)` loop: used for the dependency loop inside
`schedule` and for the top-level loop over the registry. -/
def scheduleDeps (s : RequirementSet) (fuel : Nat) (l : List Nat) (st : SchedSt) :
    SchedSt :=
  l.foldl (fun acc d => schedule s fuel d acc) st

/-- Every id the traversal can ever visit: registry values and recorded
dependency targets. -/
def allNodes (s : RequirementSet) : List Nat :=
  s.requirements.values ++ s.dependencies.flatMap (fun p => p.2)

/-- A depth budget strictly larger than the number of visitable ids. -/
def bigFuel (s : RequirementSet) : Nat := (allNodes s).length + 1

/-- `_to_install` with an explicit depth budget: the loop
`for install_req in self.requirements.values(): schedule(install_req)`. -/
def RequirementSet.toInstallFuel (s : RequirementSet) (fuel : Nat) : List Nat :=
  (scheduleDeps s fuel s.requirements.values ⟨[], []⟩).order

/-- `RequirementSet._to_install()`. -/
def RequirementSet.toInstall (s : RequirementSet) : List Nat :=
  s.toInstallFuel (bigFuel s)

/-- `req.satisfied_by or ... / if req.constraint`: the two skip conditions
of `schedule`, combined. -/
def skipB (s : RequirementSet) (i : Nat) : Bool :=
  (s.store i).satisfied_by || (s.store i).constraint

/-- A recorded parent→dependency edge. -/
def Edge (s : RequirementSet) (a b : Nat) : Prop :=
  b ∈ depsOf s.dependencies a

/-- An edge both of whose endpoints the scheduler does not skip. -/
def NSEdge (s : RequirementSet) (a b : Nat) : Prop :=
  Edge s a b ∧ skipB s a = false ∧ skipB s b = false

/-- Invariant of the scheduler state: the emitted order has no duplicates,
is contained in the visited set, and contains no skipped entity. -/
def SInv (s : RequirementSet) (st : SchedSt) : Prop :=
  st.order.Nodup ∧ (∀ x ∈ st.order, x ∈ st.visited) ∧
    ∀ x ∈ st.order, skipB s x = false

/-- How one (completed) scheduler call transforms the state: the visited set
grows, the order is extended, new order entries were unvisited before, new
visited entries come from `extra` or from recorded dependency targets, and
`SInv` is preserved. -/
def StepOK (s : RequirementSet) (extra : List Nat) (st st' : SchedSt) : Prop :=
  (∀ x ∈ st.visited, x ∈ st'.visited) ∧
  (∃ l, st'.order = st.order ++ l) ∧
  (∀ x ∈ st'.order, x ∈ st.order ∨ x ∉ st.visited) ∧
  (∀ x ∈ st'.visited, x ∈ st.visited ∨ x ∈ extra ∨
      x ∈ s.dependencies.flatMap (fun p => p.2)) ∧
  (SInv s st → SInv s st')

/-- A node that is on the recursion stack: visited but not yet emitted. -/
def gray (st : SchedSt) (g : Nat) : Prop := g ∈ st.visited ∧ g ∉ st.order

/-- The emitted order is closed under non-skipped dependency edges, with
every dependency emitted strictly earlier. -/
def DoneClosed (s : RequirementSet) (st : SchedSt) : Prop :=
  ∀ a ∈ st.order, ∀ b, NSEdge s a b →
    b ∈ st.order ∧ pos st.order b < pos st.order a

/-- The number of ids the traversal could still visit: nodes of `allNodes`
not yet in the visited set.  A strict upper bound on the remaining
recursion depth of `schedule`. -/
def unvis (s : RequirementSet) (st : SchedSt) : Nat :=
  ((allNodes s).filter (fun x => !st.visited.contains x)).length

/-! ### `install` (the orchestrator) -/

/-- Observable actions of the install loop on the external capabilities. -/
inductive Ev where
  | uninstall (i : Nat)
  | installAttempt (i : Nat)
  | rollback (i : Nat)
  | commit (i : Nat)
  | removeTemp (i : Nat)
deriving DecidableEq, Repr

/-- The entity an event concerns. -/
def Ev.entity : Ev → Nat
  | .uninstall i => i
  | .installAttempt i => i
  | .rollback i => i
  | .commit i => i
  | .removeTemp i => i

/-- The body of `install`'s `for requirement in to_install` loop: the event
trace plus the id of the entity whose exception propagated, if any.
On an exception the `raise` re-raises before `remove_temporary_source()`
and before any later entity is handled. -/
def installLoop (store : Nat → Entity) : List Nat → List Ev × Option Nat
  | [] => ([], none)
  | i :: rest =>
    let e := store i
    let pre := (if e.conflicts_with then [Ev.uninstall i] else []) ++ [Ev.installAttempt i]
    if e.install_raises then
      (pre ++ (if e.conflicts_with && !e.install_succeeded then [Ev.rollback i] else []),
       some i)
    else
      let post := (if e.conflicts_with && e.install_succeeded then [Ev.commit i] else []) ++
        [Ev.removeTemp i]
      match installLoop store rest with
      | (evs, res) => (pre ++ post ++ evs, res)

/-- `RequirementSet.install`: run the loop over `self._to_install()`. -/
def RequirementSet.install (s : RequirementSet) : List Ev × Option Nat :=
  installLoop s.store s.toInstall

/-- The events produced for one entity whose install attempt succeeds. -/
def okTrace (store : Nat → Entity) (i : Nat) : List Ev :=
  (if (store i).conflicts_with then [Ev.uninstall i] else []) ++ [Ev.installAttempt i] ++
  (if (store i).conflicts_with && (store i).install_succeeded then [Ev.commit i] else []) ++
  [Ev.removeTemp i]

/-! ### Concrete states used by witnesses and counterexamples -/

/-- A default entity: real (non-constraint) requirement, markers always
match, no link, install succeeds. -/
def entD : Entity :=
  { name := "", specifier := "", extras := [], match_markers := fun _ => true,
    link := none, constraint := false, is_direct := false, satisfied_by := false,
    conflicts_with := false, install_raises := false, install_succeeded := true,
    use_user_site := false, target_dir := none, pycompile := true }

/-- An empty requirement set over a given heap. -/
def emptySet (store : Nat → Entity) : RequirementSet :=
  { store := store, requirements := { keys := [], dict := [] },
    requirement_aliases := [], unnamed_requirements := [], reqs_to_cleanup := [],
    dependencies := [], use_user_site := false, target_dir := none, pycompile := true }

/-- A registered constraint `pkg` with extras `["a"]`. -/
def entPromo : Entity := { entD with name := "pkg", constraint := true, extras := ["a"] }

/-- State with `entPromo` registered under id 0. -/
def wSetPromo : RequirementSet :=
  { emptySet (fun _ => entPromo) with
    requirements := { keys := ["pkg"], dict := [("pkg", 0)] } }

/-- A registered real requirement `pkg==1.0`. -/
def entDup : Entity := { entD with name := "pkg", specifier := "==1.0" }

/-- A second registered package, used as a parent. -/
def entOther : Entity := { entD with name := "other" }

/-- State with `entDup` (id 0) and `entOther` (id 1) registered. -/
def wSetDup : RequirementSet :=
  { emptySet (fun i => if i = 0 then entDup else entOther) with
    requirements := { keys := ["pkg", "other"], dict := [("pkg", 0), ("other", 1)] } }

/-- An incoming real requirement `pkg` with one extra. -/
def entIncoming : Entity := { entD with name := "pkg", extras := ["b"] }

/-- An incoming real requirement `pkg==2.0`. -/
def entDup2 : Entity := { entD with name := "pkg", specifier := "==2.0" }

/-- An incoming `pkg` whose link points elsewhere. -/
def entLinkB : Entity :=
  { entD with
    name := "pkg"
    link := some { path := "/b", filename := "b", is_wheel := false,
                   wheel_supported := true } }

/-- A registered constraint `pkg` carrying a link. -/
def entLinked : Entity :=
  { entD with
    name := "pkg"
    constraint := true
    link := some { path := "/a", filename := "a", is_wheel := false,
                   wheel_supported := true } }

/-- State with `entLinked` registered under id 0. -/
def wSetLink : RequirementSet :=
  { emptySet (fun _ => entLinked) with
    requirements := { keys := ["pkg"], dict := [("pkg", 0)] } }

/-- Heap for the scheduler examples: id 0 = `p`, id 1 = `s` (satisfied),
id 2 = `c`. -/
def exStore : Nat → Entity := fun i =>
  if i = 1 then { entD with name := "s", satisfied_by := true }
  else if i = 0 then { entD with name := "p" }
  else { entD with name := "c" }

/-- Registry `[p, s, c]` with edges `p → s → c` and `s` satisfied: a cycle-free
graph where `c` is reachable from `p` only through the skipped node `s`. -/
def exSet : RequirementSet :=
  { emptySet exStore with
    requirements := { keys := ["p", "s", "c"], dict := [("p", 0), ("s", 1), ("c", 2)] },
    dependencies := [(0, [1]), (1, [2])] }

/-- Heap for the acyclic scheduler witness: two ordinary entities. -/
def exStore2 : Nat → Entity := fun i =>
  if i = 0 then { entD with name := "a" } else { entD with name := "b" }

/-- Registry `[a, b]` with the single edge `a → b`, nothing skipped. -/
def exSet2 : RequirementSet :=
  { emptySet exStore2 with
    requirements := { keys := ["a", "b"], dict := [("a", 0), ("b", 1)] },
    dependencies := [(0, [1])] }

/-- Heap for the install examples: id 0 conflicts with an installed package
and its install raises; id 1 is a normal entity. -/
def failStore : Nat → Entity := fun i =>
  if i = 0 then
    { entD with
      name := "a"
      conflicts_with := true
      install_raises := true
      install_succeeded := false }
  else { entD with name := "b" }

/-- Registry `[a, b]` over `failStore`: the install order is `[0, 1]` and
entity 0 fails. -/
def failSet : RequirementSet :=
  { emptySet failStore with
    requirements := { keys := ["a", "b"], dict := [("a", 0), ("b", 1)] } }

/-! ### Unfolding equations for the scheduler -/

theorem scheduleDeps_nil (s : RequirementSet) (fuel : Nat) (st : SchedSt) :
    scheduleDeps s fuel [] st = st := rfl

theorem scheduleDeps_cons (s : RequirementSet) (fuel d : Nat) (rest : List Nat)
    (st : SchedSt) :
    scheduleDeps s fuel (d :: rest) st
      = scheduleDeps s fuel rest (schedule s fuel d st) := rfl

theorem schedule_zero (s : RequirementSet) (req : Nat) (st : SchedSt) :
    schedule s 0 req st = st := rfl

theorem schedule_succ (s : RequirementSet) (fuel req : Nat) (st : SchedSt) :
    schedule s (fuel + 1) req st =
      if (s.store req).satisfied_by || st.visited.contains req then st
      else if (s.store req).constraint then st
      else
        { scheduleDeps s fuel (depsOf s.dependencies req)
            { st with visited := st.visited ++ [req] } with
          order := (scheduleDeps s fuel (depsOf s.dependencies req)
            { st with visited := st.visited ++ [req] }).order ++ [req] } := rfl

/-! ### Helper lemmas: sorting and permutations -/

theorem insertSorted_perm (x : String) (l : List String) :
    List.Perm (insertSorted x l) (x :: l) := by
  induction l with
  | nil => exact List.Perm.refl _
  | cons y ys ih =>
    by_cases h : strLeb x y = true
    · simp [insertSorted, h]
    · rw [insertSorted, if_neg h]
      exact (ih.cons y).trans (List.Perm.swap x y ys)

theorem mem_insertSorted {b x : String} {l : List String} :
    b ∈ insertSorted x l ↔ b = x ∨ b ∈ l := by
  rw [(insertSorted_perm x l).mem_iff, List.mem_cons]

theorem charsLe_total : ∀ a b : List Char, charsLe a b = false → charsLe b a = true := by
  intro a
  induction a with
  | nil =>
    intro b h
    rw [charsLe] at h
    cases h
  | cons x xs ih =>
    intro b h
    cases b with
    | nil => rfl
    | cons y ys =>
      rw [charsLe] at h ⊢
      by_cases hxy : x.toNat < y.toNat
      · rw [if_pos hxy] at h
        cases h
      · by_cases hyx : y.toNat < x.toNat
        · rw [if_pos hyx]
        · rw [if_neg hxy, if_neg hyx] at h
          rw [if_neg hyx, if_neg hxy]
          exact ih ys h

theorem charsLe_trans : ∀ {a b c : List Char}, charsLe a b = true →
    charsLe b c = true → charsLe a c = true := by
  intro a
  induction a with
  | nil => intro b c _ _; rfl
  | cons x xs ih =>
    intro b c hab hbc
    cases b with
    | nil => rw [charsLe] at hab; cases hab
    | cons y ys =>
      cases c with
      | nil => rw [charsLe] at hbc; cases hbc
      | cons z zs =>
        rw [charsLe] at hab hbc ⊢
        by_cases hxy : x.toNat < y.toNat
        · by_cases hyz : y.toNat < z.toNat
          · rw [if_pos (by omega)]
          · by_cases hzy : z.toNat < y.toNat
            · rw [if_neg hyz, if_pos hzy] at hbc
              cases hbc
            · rw [if_pos (by omega)]
        · by_cases hyx : y.toNat < x.toNat
          · rw [if_neg hxy, if_pos hyx] at hab
            cases hab
          · by_cases hyz : y.toNat < z.toNat
            · rw [if_pos (by omega)]
            · by_cases hzy : z.toNat < y.toNat
              · rw [if_neg hyz, if_pos hzy] at hbc
                cases hbc
              · rw [if_neg hxy, if_neg hyx] at hab
                rw [if_neg hyz, if_neg hzy] at hbc
                rw [if_neg (by omega), if_neg (by omega)]
                exact ih hab hbc

theorem strLeb_total {a b : String} (h : strLeb a b = false) : strLeb b a = true :=
  charsLe_total a.data b.data h

theorem strLeb_trans {a b c : String} (hab : strLeb a b = true)
    (hbc : strLeb b c = true) : strLeb a c = true :=
  charsLe_trans hab hbc

theorem sorted_insertSorted (x : String) {l : List String}
    (h : List.Pairwise (fun a b => strLeb a b = true) l) :
    List.Pairwise (fun a b => strLeb a b = true) (insertSorted x l) := by
  induction l with
  | nil => simp [insertSorted]
  | cons y ys ih =>
    rw [List.pairwise_cons] at h
    by_cases hxy : strLeb x y = true
    · rw [insertSorted, if_pos hxy, List.pairwise_cons]
      refine ⟨?_, List.pairwise_cons.2 h⟩
      intro b hb
      rcases List.mem_cons.1 hb with rfl | hb
      · exact hxy
      · exact strLeb_trans hxy (h.1 b hb)
    · rw [insertSorted, if_neg hxy, List.pairwise_cons]
      refine ⟨?_, ih h.2⟩
      intro b hb
      rcases mem_insertSorted.1 hb with rfl | hb
      · exact strLeb_total (Bool.eq_false_iff.mpr hxy)
      · exact h.1 b hb

theorem sortStrings_perm (l : List String) : List.Perm (sortStrings l) l := by
  induction l with
  | nil => exact List.Perm.refl _
  | cons x xs ih => exact (insertSorted_perm x (sortStrings xs)).trans (ih.cons x)

theorem sorted_sortStrings (l : List String) :
    List.Pairwise (fun a b => strLeb a b = true) (sortStrings l) := by
  induction l with
  | nil => simp [sortStrings]
  | cons x xs ih => exact sorted_insertSorted x ih

/-- `extrasUnion` is sorted in the lexicographic string order. -/
theorem extrasUnion_sorted (a b : List String) :
    List.Pairwise (fun x y => strLeb x y = true) (extrasUnion a b) :=
  sorted_sortStrings _

theorem extrasUnion_nodup (a b : List String) : (extrasUnion a b).Nodup :=
  ((sortStrings_perm _).nodup_iff).2 (List.nodup_dedup _)

theorem mem_extrasUnion {x : String} {a b : List String} :
    x ∈ extrasUnion a b ↔ x ∈ a ∨ x ∈ b := by
  rw [extrasUnion, (sortStrings_perm _).mem_iff, List.mem_dedup, List.mem_append]

/-! ### Helper lemmas: state plumbing -/

/-- `get_requirement` reads only the registry and the alias table. -/
theorem get_requirement_congr {s t : RequirementSet}
    (h1 : t.requirements = s.requirements)
    (h2 : t.requirement_aliases = s.requirement_aliases) (p : String) :
    t.get_requirement p = s.get_requirement p := by
  simp [RequirementSet.get_requirement, lookupName, h1, h2]

theorem lookupKV_mem {α β : Type} [DecidableEq α] {l : List (α × β)} {a : α} {b : β}
    (h : lookupKV l a = some b) : (a, b) ∈ l := by
  induction l with
  | nil => simp [lookupKV] at h
  | cons kv rest ih =>
    rcases kv with ⟨k, v⟩
    rw [lookupKV] at h
    by_cases hk : k = a
    · rw [if_pos hk] at h
      subst hk
      cases h
      exact List.mem_cons_self _ _
    · rw [if_neg hk] at h
      exact List.mem_cons_of_mem _ (ih h)

/-- Every recorded dependency target occurs among the dependency-map values. -/
theorem depsOf_subset_targets {deps : List (Nat × List Nat)} {i d : Nat}
    (h : d ∈ depsOf deps i) : d ∈ deps.flatMap (fun p => p.2) := by
  unfold depsOf at h
  cases hl : lookupKV deps i with
  | none => rw [hl] at h; simp at h
  | some l =>
    rw [hl] at h
    exact List.mem_flatMap.2 ⟨(i, l), lookupKV_mem hl, h⟩

/-- When the parent (if any) resolves, the edge-recording epilogue returns
`result` and touches only `dependencies`. -/
theorem finishEdge_ok (s : RequirementSet) (cur : Nat) (res : List Nat)
    (parent : Option String)
    (hpar : ∀ p, parent = some p → p ≠ "" → ∃ pid, s.get_requirement p = some pid) :
    (finishEdge s cur res parent).2 = .ok res ∧
    (finishEdge s cur res parent).1.store = s.store ∧
    (finishEdge s cur res parent).1.requirements = s.requirements ∧
    (finishEdge s cur res parent).1.requirement_aliases = s.requirement_aliases ∧
    (finishEdge s cur res parent).1.unnamed_requirements = s.unnamed_requirements ∧
    (finishEdge s cur res parent).1.reqs_to_cleanup = s.reqs_to_cleanup := by
  rcases parent with _ | p
  · exact ⟨rfl, rfl, rfl, rfl, rfl, rfl⟩
  · unfold finishEdge
    by_cases hp : p = ""
    · subst hp; simp
    · obtain ⟨pid, hpid⟩ := hpar p rfl hp
      simp [hp, hpid]

/-! ### Scheduler invariants -/

theorem stepOK_refl (s : RequirementSet) (extra : List Nat) (st : SchedSt) :
    StepOK s extra st st :=
  ⟨fun _ h => h, ⟨[], (List.append_nil _).symm⟩, fun _ hx => Or.inl hx,
   fun _ hx => Or.inl hx, id⟩

theorem stepOK_append {s : RequirementSet} {A B : List Nat} {st st₁ st₂ : SchedSt}
    (h1 : StepOK s A st st₁) (h2 : StepOK s B st₁ st₂) : StepOK s (A ++ B) st st₂ := by
  obtain ⟨m1, ⟨l1, o1⟩, f1, v1, i1⟩ := h1
  obtain ⟨m2, ⟨l2, o2⟩, f2, v2, i2⟩ := h2
  refine ⟨fun x hx => m2 x (m1 x hx),
    ⟨l1 ++ l2, by rw [o2, o1, List.append_assoc]⟩, ?_, ?_, fun hi => i2 (i1 hi)⟩
  · intro x hx
    rcases f2 x hx with hx1 | hx1
    · exact f1 x hx1
    · exact Or.inr (fun hc => hx1 (m1 x hc))
  · intro x hx
    rcases v2 x hx with hx1 | hx1 | hx1
    · rcases v1 x hx1 with h | h | h
      · exact Or.inl h
      · exact Or.inr (Or.inl (List.mem_append_left B h))
      · exact Or.inr (Or.inr h)
    · exact Or.inr (Or.inl (List.mem_append_right A hx1))
    · exact Or.inr (Or.inr hx1)

theorem stepOK_extra {s : RequirementSet} {A B : List Nat} {st st' : SchedSt}
    (h : StepOK s A st st')
    (hAB : ∀ x ∈ A, x ∈ B ∨ x ∈ s.dependencies.flatMap (fun p => p.2)) :
    StepOK s B st st' := by
  obtain ⟨m, o, f, v, i⟩ := h
  refine ⟨m, o, f, ?_, i⟩
  intro x hx
  rcases v x hx with h' | h' | h'
  · exact Or.inl h'
  · rcases hAB x h' with h'' | h''
    · exact Or.inr (Or.inl h'')
    · exact Or.inr (Or.inr h'')
  · exact Or.inr (Or.inr h')

/-- The fundamental invariant of `schedule` / `scheduleDeps`, for every
fuel value. -/
theorem schedule_basic (s : RequirementSet) :
    ∀ fuel, (∀ req st, StepOK s [req] st (schedule s fuel req st)) ∧
      (∀ l st, StepOK s l st (scheduleDeps s fuel l st)) := by
  intro fuel
  induction fuel with
  | zero =>
    have h0 : ∀ req st, StepOK s [req] st (schedule s 0 req st) := by
      intro req st
      rw [schedule_zero]
      exact stepOK_refl s [req] st
    refine ⟨h0, ?_⟩
    intro l
    induction l with
    | nil =>
      intro st
      rw [scheduleDeps_nil]
      exact stepOK_refl s [] st
    | cons d rest ih =>
      intro st
      rw [scheduleDeps_cons]
      exact stepOK_append (h0 d st) (ih (schedule s 0 d st))
  | succ fuel ih =>
    have hsched : ∀ req st, StepOK s [req] st (schedule s (fuel + 1) req st) := by
      intro req st
      cases h1 : ((s.store req).satisfied_by || st.visited.contains req) with
      | true =>
        have heq : schedule s (fuel + 1) req st = st := by
          rw [schedule_succ, h1]
          simp
        rw [heq]
        exact stepOK_refl s [req] st
      | false =>
        cases h2 : (s.store req).constraint with
        | true =>
          have heq : schedule s (fuel + 1) req st = st := by
            rw [schedule_succ, h1, h2]
            simp
          rw [heq]
          exact stepOK_refl s [req] st
        | false =>
          have hsat : (s.store req).satisfied_by = false :=
            (Bool.or_eq_false_iff.mp h1).1
          have hnv : req ∉ st.visited := by
            have hb := (Bool.or_eq_false_iff.mp h1).2
            simpa using hb
          have heq : schedule s (fuel + 1) req st =
              { scheduleDeps s fuel (depsOf s.dependencies req)
                  { st with visited := st.visited ++ [req] } with
                order := (scheduleDeps s fuel (depsOf s.dependencies req)
                  { st with visited := st.visited ++ [req] }).order ++ [req] } := by
            rw [schedule_succ, h1, h2]
            simp
          rw [heq]
          obtain ⟨m, ⟨Δ, oeq⟩, f, v, i⟩ :=
            ih.2 (depsOf s.dependencies req) { st with visited := st.visited ++ [req] }
          have o1 : ({ st with visited := st.visited ++ [req] } : SchedSt).order
              = st.order := rfl
          rw [o1] at oeq
          refine ⟨?_, ⟨Δ ++ [req], ?_⟩, ?_, ?_, ?_⟩
          · intro x hx
            exact m x (List.mem_append_left [req] hx)
          · rw [oeq, List.append_assoc]
          · intro x hx
            rcases List.mem_append.1 hx with hx1 | hx1
            · rcases f x hx1 with h' | h'
              · exact Or.inl (o1 ▸ h')
              · exact Or.inr (fun hc => h' (List.mem_append_left [req] hc))
            · rcases List.mem_singleton.1 hx1 with rfl
              exact Or.inr hnv
          · intro x hx
            rcases v x hx with h' | h' | h'
            · rcases List.mem_append.1 h' with h'' | h''
              · exact Or.inl h''
              · exact Or.inr (Or.inl h'')
            · exact Or.inr (Or.inr (depsOf_subset_targets h'))
            · exact Or.inr (Or.inr h')
          · intro hs
            have hs1 : SInv s { st with visited := st.visited ++ [req] } := by
              refine ⟨hs.1, ?_, hs.2.2⟩
              intro x hx
              exact List.mem_append_left [req] (hs.2.1 x hx)
            have hs2 := i hs1
            have hro : req ∉ (scheduleDeps s fuel (depsOf s.dependencies req)
                { st with visited := st.visited ++ [req] }).order := by
              intro hc
              rcases f req hc with h' | h'
              · exact hnv (hs.2.1 req (o1 ▸ h'))
              · exact h' (List.mem_append_right st.visited (List.mem_singleton.2 rfl))
            refine ⟨?_, ?_, ?_⟩
            · rw [List.nodup_append]
              exact ⟨hs2.1, List.nodup_singleton req,
                fun a ha hb => (List.mem_singleton.1 hb ▸ hro) (List.mem_singleton.1 hb ▸ ha)⟩
            · intro x hx
              rcases List.mem_append.1 hx with hx1 | hx1
              · exact hs2.2.1 x hx1
              · rcases List.mem_singleton.1 hx1 with rfl
                exact m x (List.mem_append_right st.visited (List.mem_singleton.2 rfl))
            · intro x hx
              rcases List.mem_append.1 hx with hx1 | hx1
              · exact hs2.2.2 x hx1
              · rcases List.mem_singleton.1 hx1 with rfl
                simp [skipB, hsat, h2]
    refine ⟨hsched, ?_⟩
    intro l
    induction l with
    | nil =>
      intro st
      rw [scheduleDeps_nil]
      exact stepOK_refl s [] st
    | cons d rest ihl =>
      intro st
      rw [scheduleDeps_cons]
      exact stepOK_append (hsched d st) (ihl (schedule s (fuel + 1) d st))

/-- The scheduler invariant at the top level, for every fuel value. -/
theorem toInstallFuel_invariant (s : RequirementSet) (fuel : Nat) :
    SInv s (scheduleDeps s fuel s.requirements.values ⟨[], []⟩) ∧
    ∀ x ∈ (scheduleDeps s fuel s.requirements.values ⟨[], []⟩).visited, x ∈ allNodes s := by
  obtain ⟨m, o, f, v, i⟩ := (schedule_basic s fuel).2 s.requirements.values ⟨[], []⟩
  constructor
  · refine i ⟨List.nodup_nil, ?_, ?_⟩ <;> intro x hx <;> simp at hx
  · intro x hx
    rcases v x hx with h | h | h
    · simp at h
    · exact List.mem_append_left _ h
    · exact List.mem_append_right _ h

/-- The computed install order has no duplicate entities. -/
theorem toInstall_nodup (s : RequirementSet) : s.toInstall.Nodup :=
  ((toInstallFuel_invariant s (bigFuel s)).1).1

/-- Every scheduled entity is a registry value or a recorded dependency
target. -/
theorem toInstall_subset_allNodes (s : RequirementSet) :
    ∀ x ∈ s.toInstall, x ∈ allNodes s := by
  intro x hx
  obtain ⟨hinv, hvis⟩ := toInstallFuel_invariant s (bigFuel s)
  exact hvis x (hinv.2.1 x hx)

/-- No scheduled entity is satisfied or still a constraint. -/
theorem toInstall_nonskip (s : RequirementSet) :
    ∀ x ∈ s.toInstall, skipB s x = false := by
  intro x hx
  exact ((toInstallFuel_invariant s (bigFuel s)).1).2.2 x hx

/-! ### Fuel stability: the embedded recursion terminates -/

theorem length_filter_mono {p q : Nat → Bool} (l : List Nat)
    (h : ∀ x, q x = true → p x = true) :
    (l.filter q).length ≤ (l.filter p).length := by
  induction l with
  | nil => simp
  | cons a t ih =>
    by_cases hq : q a = true
    · rw [List.filter_cons_of_pos hq, List.filter_cons_of_pos (h a hq)]
      simpa using ih
    · rw [List.filter_cons_of_neg (by simpa using hq)]
      by_cases hp : p a = true
      · rw [List.filter_cons_of_pos hp]
        exact le_trans ih (Nat.le_succ _)
      · rw [List.filter_cons_of_neg (by simpa using hp)]
        exact ih

theorem length_filter_strict {p q : Nat → Bool} {l : List Nat} {a : Nat}
    (h : ∀ x, q x = true → p x = true) (ha : a ∈ l) (hpa : p a = true)
    (hqa : q a = false) :
    (l.filter q).length < (l.filter p).length := by
  induction l with
  | nil => cases ha
  | cons b t ih =>
    by_cases hb : b = a
    · subst hb
      rw [List.filter_cons_of_pos hpa, List.filter_cons_of_neg (by simp [hqa])]
      exact Nat.lt_succ_of_le (length_filter_mono t h)
    · have hat : a ∈ t := by
        rcases List.mem_cons.1 ha with h' | h'
        · exact absurd h'.symm hb
        · exact h'
      by_cases hqb : q b = true
      · rw [List.filter_cons_of_pos hqb, List.filter_cons_of_pos (h b hqb)]
        simpa using ih hat
      · rw [List.filter_cons_of_neg (by simpa using hqb)]
        by_cases hpb : p b = true
        · rw [List.filter_cons_of_pos hpb]
          exact Nat.lt_succ_of_lt (ih hat)
        · rw [List.filter_cons_of_neg (by simpa using hpb)]
          exact ih hat

theorem unvis_mono {s : RequirementSet} {st st' : SchedSt}
    (h : ∀ x ∈ st.visited, x ∈ st'.visited) : unvis s st' ≤ unvis s st := by
  apply length_filter_mono
  intro x hx
  simp only [Bool.not_eq_true'] at hx ⊢
  rcases hc : st.visited.contains x with _ | _
  · rfl
  · have : x ∈ st.visited := by simpa using hc
    have : x ∈ st'.visited := h x this
    have : st'.visited.contains x = true := by simpa using this
    rw [this] at hx
    cases hx

theorem unvis_insert_lt {s : RequirementSet} {st : SchedSt} {req : Nat}
    (hreq : req ∈ allNodes s) (hnv : req ∉ st.visited) :
    unvis s { st with visited := st.visited ++ [req] } < unvis s st := by
  refine @length_filter_strict _ _ _ req ?_ hreq ?_ ?_
  · intro x hx
    simp only [Bool.not_eq_true'] at hx ⊢
    have hx' : x ∉ st.visited ++ [req] := by simpa using hx
    have : x ∉ st.visited := fun hc => hx' (List.mem_append_left _ hc)
    simpa using this
  · simpa using hnv
  · simp

theorem unvis_schedule_le (s : RequirementSet) (fuel req : Nat) (st : SchedSt) :
    unvis s (schedule s fuel req st) ≤ unvis s st :=
  unvis_mono ((schedule_basic s fuel).1 req st).1

/-- `schedule` and `scheduleDeps` compute the same result for any two
sufficient fuel values: the embedded recursion terminates. -/
theorem schedule_stable (s : RequirementSet) :
    ∀ fuel₁, (∀ fuel₂ req st, req ∈ allNodes s → unvis s st < fuel₁ →
        unvis s st < fuel₂ → schedule s fuel₁ req st = schedule s fuel₂ req st) ∧
      (∀ fuel₂ l st, (∀ d ∈ l, d ∈ allNodes s) → unvis s st < fuel₁ →
        unvis s st < fuel₂ → scheduleDeps s fuel₁ l st = scheduleDeps s fuel₂ l st) := by
  intro fuel₁
  induction fuel₁ with
  | zero =>
    constructor
    · intro _ _ st _ h1 _
      exact absurd h1 (Nat.not_lt_zero _)
    · intro _ _ st _ h1 _
      exact absurd h1 (Nat.not_lt_zero _)
  | succ fuel₁ ih =>
    have hP : ∀ fuel₂ req st, req ∈ allNodes s → unvis s st < fuel₁ + 1 →
        unvis s st < fuel₂ → schedule s (fuel₁ + 1) req st = schedule s fuel₂ req st := by
      intro fuel₂ req st hreq h1 h2
      cases fuel₂ with
      | zero => exact absurd h2 (Nat.not_lt_zero _)
      | succ g =>
        cases hc1 : ((s.store req).satisfied_by || st.visited.contains req) with
        | true =>
          rw [schedule_succ, hc1, schedule_succ, hc1]
          simp
        | false =>
          cases hc2 : (s.store req).constraint with
          | true =>
            rw [schedule_succ, hc1, hc2, schedule_succ, hc1, hc2]
            simp
          | false =>
            rw [schedule_succ, hc1, hc2, schedule_succ, hc1, hc2]
            simp only [Bool.false_eq_true, if_false]
            have hnv : req ∉ st.visited := by
              have hb := (Bool.or_eq_false_iff.mp hc1).2
              simpa using hb
            have hlt := @unvis_insert_lt s st req hreq hnv
            have hdeps := ih.2 g (depsOf s.dependencies req)
              { st with visited := st.visited ++ [req] }
              (fun d hd => List.mem_append_right _ (depsOf_subset_targets hd))
              (lt_of_lt_of_le hlt (Nat.lt_succ_iff.mp h1))
              (lt_of_lt_of_le hlt (Nat.lt_succ_iff.mp h2))
            rw [hdeps]
    have hQ : ∀ fuel₂ l st, (∀ d ∈ l, d ∈ allNodes s) → unvis s st < fuel₁ + 1 →
        unvis s st < fuel₂ →
        scheduleDeps s (fuel₁ + 1) l st = scheduleDeps s fuel₂ l st := by
      intro fuel₂ l
      induction l with
      | nil =>
        intro st _ _ _
        rw [scheduleDeps_nil, scheduleDeps_nil]
      | cons d rest ihl =>
        intro st hl h1 h2
        rw [scheduleDeps_cons, scheduleDeps_cons]
        have hd := hP fuel₂ d st (hl d (List.mem_cons_self d rest)) h1 h2
        rw [← hd]
        exact ihl (schedule s (fuel₁ + 1) d st)
          (fun x hx => hl x (List.mem_cons_of_mem d hx))
          (lt_of_le_of_lt (unvis_schedule_le s (fuel₁ + 1) d st) h1)
          (lt_of_le_of_lt (unvis_schedule_le s (fuel₁ + 1) d st) h2)
    exact ⟨hP, hQ⟩

theorem unvis_start (s : RequirementSet) : unvis s ⟨[], []⟩ = (allNodes s).length := by
  unfold unvis
  simp

/-- Any fuel at least `bigFuel` computes the same install order. -/
theorem toInstallFuel_stable (s : RequirementSet) (extra : Nat) :
    s.toInstallFuel (bigFuel s + extra) = s.toInstall := by
  unfold RequirementSet.toInstall RequirementSet.toInstallFuel
  have h := (schedule_stable s (bigFuel s + extra)).2 (bigFuel s) s.requirements.values
    ⟨[], []⟩ (fun d hd => List.mem_append_left _ hd) ?_ ?_
  · rw [h]
  · rw [unvis_start, bigFuel]
    omega
  · rw [unvis_start, bigFuel]
    omega

/-! ### Topological ordering on cycle-free graphs -/

theorem pos_append_of_mem {l : List Nat} (t : List Nat) {a : Nat} (h : a ∈ l) :
    pos (l ++ t) a = pos l a := by
  induction l with
  | nil => cases h
  | cons x xs ih =>
    rw [List.cons_append, pos, pos]
    by_cases hx : x = a
    · rw [if_pos hx, if_pos hx]
    · rw [if_neg hx, if_neg hx]
      have hxs : a ∈ xs := by
        rcases List.mem_cons.1 h with h' | h'
        · exact absurd h'.symm hx
        · exact h'
      rw [ih hxs]

theorem pos_append_last {l : List Nat} {a : Nat} (h : a ∉ l) :
    pos (l ++ [a]) a = l.length := by
  induction l with
  | nil => simp [pos]
  | cons x xs ih =>
    rw [List.cons_append, pos]
    have hx : x ≠ a := fun hc => h (hc ▸ List.mem_cons_self x xs)
    rw [if_neg hx, ih (fun hc => h (List.mem_cons_of_mem x hc))]
    rfl

theorem pos_lt_length {l : List Nat} {a : Nat} (h : a ∈ l) : pos l a < l.length := by
  induction l with
  | nil => cases h
  | cons x xs ih =>
    rw [pos]
    by_cases hx : x = a
    · rw [if_pos hx]
      simp
    · rw [if_neg hx]
      have hxs : a ∈ xs := by
        rcases List.mem_cons.1 h with h' | h'
        · exact absurd h'.symm hx
        · exact h'
      simpa [List.length_cons, Nat.succ_lt_succ_iff] using ih hxs

/-- A skipped entity leaves the scheduler state untouched. -/
theorem schedule_skip (s : RequirementSet) {fuel req : Nat} (st : SchedSt)
    (hf : 1 ≤ fuel) (h : skipB s req = true) : schedule s fuel req st = st := by
  cases fuel with
  | zero => omega
  | succ f =>
    cases hs : (s.store req).satisfied_by with
    | true =>
      rw [schedule_succ, hs]
      simp
    | false =>
      have hcon : (s.store req).constraint = true := by
        simpa [skipB, hs] using h
      cases hv : st.visited.contains req with
      | true =>
        rw [schedule_succ, hs, hv]
        simp
      | false =>
        rw [schedule_succ, hs, hv, hcon]
        simp

/-- The central DFS lemma: on a cycle-free graph, a completed `schedule`
call preserves `DoneClosed`, does not create gray nodes, and leaves every
non-skipped argument emitted (or already on the stack). -/
theorem schedule_topo (s : RequirementSet)
    (hacyc : ∀ a, ¬ Relation.TransGen (Edge s) a a) :
    ∀ fuel,
      (∀ req st, req ∈ allNodes s → unvis s st < fuel → SInv s st → DoneClosed s st →
        (∀ g, gray st g → Relation.ReflTransGen (NSEdge s) g req) →
        DoneClosed s (schedule s fuel req st) ∧
        (∀ g, gray (schedule s fuel req st) g → gray st g) ∧
        (skipB s req = false → req ∈ (schedule s fuel req st).order ∨ gray st req)) ∧
      (∀ l st p, (∀ d ∈ l, d ∈ allNodes s) → unvis s st < fuel → SInv s st →
        DoneClosed s st → skipB s p = false → (∀ d ∈ l, Edge s p d) →
        (∀ g, gray st g → Relation.ReflTransGen (NSEdge s) g p) →
        DoneClosed s (scheduleDeps s fuel l st) ∧
        (∀ g, gray (scheduleDeps s fuel l st) g → gray st g) ∧
        (∀ d ∈ l, skipB s d = false → d ∈ (scheduleDeps s fuel l st).order)) := by
  intro fuel
  induction fuel with
  | zero =>
    constructor
    · intro _ st _ h1 _ _ _
      exact absurd h1 (Nat.not_lt_zero _)
    · intro _ st _ _ h1 _ _ _ _
      exact absurd h1 (Nat.not_lt_zero _)
  | succ fuel ih =>
    have hP : ∀ req st, req ∈ allNodes s → unvis s st < fuel + 1 → SInv s st →
        DoneClosed s st →
        (∀ g, gray st g → Relation.ReflTransGen (NSEdge s) g req) →
        DoneClosed s (schedule s (fuel + 1) req st) ∧
        (∀ g, gray (schedule s (fuel + 1) req st) g → gray st g) ∧
        (skipB s req = false →
          req ∈ (schedule s (fuel + 1) req st).order ∨ gray st req) := by
      intro req st hreq hfuel hinv hdc hgray
      cases hc1 : ((s.store req).satisfied_by || st.visited.contains req) with
      | true =>
        have heq : schedule s (fuel + 1) req st = st := by
          rw [schedule_succ, hc1]
          simp
        rw [heq]
        refine ⟨hdc, fun g hg => hg, ?_⟩
        intro hskip
        have hsat : (s.store req).satisfied_by = false := by
          have h' : ((s.store req).satisfied_by || (s.store req).constraint) = false := by
            simpa [skipB] using hskip
          exact (Bool.or_eq_false_iff.mp h').1
        have hv : st.visited.contains req = true := by
          rcases Bool.or_eq_true_iff.mp hc1 with h' | h'
          · rw [hsat] at h'
            cases h'
          · exact h'
        by_cases ho : req ∈ st.order
        · exact Or.inl ho
        · exact Or.inr ⟨by simpa using hv, ho⟩
      | false =>
        cases hc2 : (s.store req).constraint with
        | true =>
          have heq : schedule s (fuel + 1) req st = st := by
            rw [schedule_succ, hc1, hc2]
            simp
          rw [heq]
          refine ⟨hdc, fun g hg => hg, ?_⟩
          intro hskip
          rw [skipB, hc2] at hskip
          simp at hskip
        | false =>
          have hsat : (s.store req).satisfied_by = false :=
            (Bool.or_eq_false_iff.mp hc1).1
          have hnv : req ∉ st.visited := by
            have hb := (Bool.or_eq_false_iff.mp hc1).2
            simpa using hb
          have hskipreq : skipB s req = false := by
            simp [skipB, hsat, hc2]
          have heq : schedule s (fuel + 1) req st =
              { scheduleDeps s fuel (depsOf s.dependencies req)
                  { st with visited := st.visited ++ [req] } with
                order := (scheduleDeps s fuel (depsOf s.dependencies req)
                  { st with visited := st.visited ++ [req] }).order ++ [req] } := by
            rw [schedule_succ, hc1, hc2]
            simp
          rw [heq]
          have hinv1 : SInv s { st with visited := st.visited ++ [req] } := by
            refine ⟨hinv.1, ?_, hinv.2.2⟩
            intro x hx
            exact List.mem_append_left [req] (hinv.2.1 x hx)
          have hgray1 : ∀ g, gray { st with visited := st.visited ++ [req] } g →
              Relation.ReflTransGen (NSEdge s) g req := by
            intro g hg
            rcases List.mem_append.1 hg.1 with h' | h'
            · exact hgray g ⟨h', hg.2⟩
            · rcases List.mem_singleton.1 h' with rfl
              exact Relation.ReflTransGen.refl
          obtain ⟨hdc2, hgray2, hcov2⟩ := ih.2 (depsOf s.dependencies req)
            { st with visited := st.visited ++ [req] } req
            (fun d hd => List.mem_append_right _ (depsOf_subset_targets hd))
            (lt_of_lt_of_le (unvis_insert_lt hreq hnv) (Nat.lt_succ_iff.mp hfuel))
            hinv1 hdc hskipreq (fun d hd => hd) hgray1
          set st2 := scheduleDeps s fuel (depsOf s.dependencies req)
            { st with visited := st.visited ++ [req] } with hst2
          obtain ⟨m, ⟨Δ, oeq⟩, f, v, i⟩ := (schedule_basic s fuel).2
            (depsOf s.dependencies req) { st with visited := st.visited ++ [req] }
          have hro : req ∉ st2.order := by
            intro hc
            rcases f req hc with h' | h'
            · exact hnv (hinv.2.1 req h')
            · exact h' (List.mem_append_right st.visited (List.mem_singleton.2 rfl))
          refine ⟨?_, ?_, ?_⟩
          · intro a ha b hb
            rcases List.mem_append.1 ha with ha1 | ha1
            · obtain ⟨hbmem, hblt⟩ := hdc2 a ha1 b hb
              refine ⟨List.mem_append_left _ hbmem, ?_⟩
              rw [pos_append_of_mem [req] hbmem, pos_append_of_mem [req] ha1]
              exact hblt
            · rcases List.mem_singleton.1 ha1 with rfl
              have hbdep : b ∈ depsOf s.dependencies a := hb.1
              have hbmem : b ∈ st2.order := hcov2 b hbdep hb.2.2
              refine ⟨List.mem_append_left _ hbmem, ?_⟩
              rw [pos_append_of_mem [a] hbmem, pos_append_last hro]
              exact pos_lt_length hbmem
          · intro g hg
            have hg2 : gray st2 g := by
              refine ⟨hg.1, fun hc => hg.2 (List.mem_append_left _ hc)⟩
            have hg1 := hgray2 g hg2
            have hgne : g ≠ req := by
              intro hc
              exact hg.2 (hc ▸ List.mem_append_right _ (List.mem_singleton.2 rfl))
            rcases List.mem_append.1 hg1.1 with h' | h'
            · exact ⟨h', hg1.2⟩
            · exact absurd (List.mem_singleton.1 h') hgne
          · intro _
            exact Or.inl (List.mem_append_right _ (List.mem_singleton.2 rfl))
    have hQ : ∀ l st p, (∀ d ∈ l, d ∈ allNodes s) → unvis s st < fuel + 1 →
        SInv s st → DoneClosed s st → skipB s p = false → (∀ d ∈ l, Edge s p d) →
        (∀ g, gray st g → Relation.ReflTransGen (NSEdge s) g p) →
        DoneClosed s (scheduleDeps s (fuel + 1) l st) ∧
        (∀ g, gray (scheduleDeps s (fuel + 1) l st) g → gray st g) ∧
        (∀ d ∈ l, skipB s d = false →
          d ∈ (scheduleDeps s (fuel + 1) l st).order) := by
      intro l
      induction l with
      | nil =>
        intro st p _ _ _ hdc _ _ _
        rw [scheduleDeps_nil]
        exact ⟨hdc, fun g hg => hg, fun d hd => absurd hd (List.not_mem_nil d)⟩
      | cons d rest ihl =>
        intro st p hl hfuel hinv hdc hp hedge hgray
        rw [scheduleDeps_cons]
        cases hskipd : skipB s d with
        | true =>
          have heq : schedule s (fuel + 1) d st = st :=
            schedule_skip s st (Nat.le_add_left 1 fuel) hskipd
          rw [heq]
          obtain ⟨hdc', hgray', hcov'⟩ := ihl st p
            (fun x hx => hl x (List.mem_cons_of_mem d hx)) hfuel hinv hdc hp
            (fun x hx => hedge x (List.mem_cons_of_mem d hx)) hgray
          refine ⟨hdc', hgray', ?_⟩
          intro x hx hsx
          rcases List.mem_cons.1 hx with rfl | hx'
          · rw [hskipd] at hsx
            cases hsx
          · exact hcov' x hx' hsx
        | false =>
          have hnse : NSEdge s p d := ⟨hedge d (List.mem_cons_self d rest), hp, hskipd⟩
          obtain ⟨hdc1, hgray1, hcov1⟩ := hP d st (hl d (List.mem_cons_self d rest))
            hfuel hinv hdc
            (fun g hg => Relation.ReflTransGen.tail (hgray g hg) hnse)
          have hdord : d ∈ (schedule s (fuel + 1) d st).order := by
            rcases hcov1 hskipd with h' | h'
            · exact h'
            · exfalso
              have hreach : Relation.ReflTransGen (Edge s) d p :=
                Relation.ReflTransGen.mono (fun a b hab => hab.1) (hgray d h')
              exact hacyc p (Relation.TransGen.head'
                (hedge d (List.mem_cons_self d rest)) hreach)
          have hgrayNext : ∀ g, gray (schedule s (fuel + 1) d st) g →
              Relation.ReflTransGen (NSEdge s) g p := by
            intro g hg
            exact hgray g (hgray1 g hg)
          obtain ⟨minner, ⟨Δ1, oeq1⟩, _, _, iinner⟩ :=
            (schedule_basic s (fuel + 1)).1 d st
          obtain ⟨hdc', hgray', hcov'⟩ := ihl (schedule s (fuel + 1) d st) p
            (fun x hx => hl x (List.mem_cons_of_mem d hx))
            (lt_of_le_of_lt (unvis_schedule_le s (fuel + 1) d st) hfuel)
            (iinner hinv) hdc1 hp
            (fun x hx => hedge x (List.mem_cons_of_mem d hx)) hgrayNext
          refine ⟨hdc', ?_, ?_⟩
          · intro g hg
            exact hgray1 g (hgray' g hg)
          · intro x hx hsx
            rcases List.mem_cons.1 hx with rfl | hx'
            · obtain ⟨_, ⟨Δ2, oeq2⟩, _, _, _⟩ := (schedule_basic s (fuel + 1)).2 rest
                (schedule s (fuel + 1) x st)
              rw [oeq2]
              exact List.mem_append_left _ hdord
            · exact hcov' x hx' hsx
    exact ⟨hP, hQ⟩

/-- Scheduling the registry roots from a gray-free state keeps the order
closed under non-skipped edges and creates no gray node. -/
theorem scheduleDeps_roots (s : RequirementSet)
    (hacyc : ∀ a, ¬ Relation.TransGen (Edge s) a a) (fuel : Nat) :
    ∀ l st, (∀ d ∈ l, d ∈ allNodes s) → unvis s st < fuel → SInv s st →
      DoneClosed s st → (∀ g, ¬ gray st g) →
      DoneClosed s (scheduleDeps s fuel l st) ∧
      (∀ g, ¬ gray (scheduleDeps s fuel l st) g) := by
  intro l
  induction l with
  | nil =>
    intro st _ _ _ hdc hng
    rw [scheduleDeps_nil]
    exact ⟨hdc, hng⟩
  | cons r rest ihl =>
    intro st hl hfuel hinv hdc hng
    rw [scheduleDeps_cons]
    cases hskip : skipB s r with
    | true =>
      have heq : schedule s fuel r st = st := by
        refine schedule_skip s st ?_ hskip
        omega
      rw [heq]
      exact ihl st (fun x hx => hl x (List.mem_cons_of_mem r hx)) hfuel hinv hdc hng
    | false =>
      obtain ⟨hdc1, hgray1, _⟩ := (schedule_topo s hacyc fuel).1 r st
        (hl r (List.mem_cons_self r rest)) hfuel hinv hdc
        (fun g hg => absurd hg (hng g))
      obtain ⟨_, _, _, _, iinner⟩ := (schedule_basic s fuel).1 r st
      exact ihl (schedule s fuel r st)
        (fun x hx => hl x (List.mem_cons_of_mem r hx))
        (lt_of_le_of_lt (unvis_schedule_le s fuel r st) hfuel)
        (iinner hinv) hdc1 (fun g hg => hng g (hgray1 g hg))

/-- On a cycle-free graph, every emitted non-skipped dependency of an
emitted entity is emitted strictly earlier. -/
theorem toInstall_edge_order (s : RequirementSet)
    (hacyc : ∀ a, ¬ Relation.TransGen (Edge s) a a) :
    ∀ a ∈ s.toInstall, ∀ b, NSEdge s a b →
      b ∈ s.toInstall ∧ pos s.toInstall b < pos s.toInstall a := by
  have h := scheduleDeps_roots s hacyc (bigFuel s) s.requirements.values ⟨[], []⟩
    (fun d hd => List.mem_append_left _ hd)
    (by rw [unvis_start, bigFuel]; omega)
    ⟨List.nodup_nil, fun x hx => absurd hx (List.not_mem_nil x),
     fun x hx => absurd hx (List.not_mem_nil x)⟩
    (fun a ha => absurd ha (List.not_mem_nil a))
    (fun g hg => (List.not_mem_nil g) hg.1)
  intro a ha b hb
  exact h.1 a ha b hb

/-! ### Install-loop characterizations -/

theorem installLoop_ok_cons (store : Nat → Entity) (i : Nat) (rest : List Nat)
    (h : (store i).install_raises = false) :
    installLoop store (i :: rest) =
      (okTrace store i ++ (installLoop store rest).1, (installLoop store rest).2) := by
  rw [installLoop, h]
  rcases hr : installLoop store rest with ⟨evs, res⟩
  simp [okTrace, hr]

theorem installLoop_fail_cons (store : Nat → Entity) (i : Nat) (rest : List Nat)
    (h : (store i).install_raises = true) :
    installLoop store (i :: rest) =
      ((if (store i).conflicts_with then [Ev.uninstall i] else []) ++
        [Ev.installAttempt i] ++
        (if (store i).conflicts_with && !(store i).install_succeeded
          then [Ev.rollback i] else []),
       some i) := by
  rw [installLoop, h]
  simp [List.append_assoc]

/-- Processing a run of non-raising entities just accumulates their traces. -/
theorem installLoop_append_ok (store : Nat → Entity) (l1 r : List Nat)
    (hok : ∀ j ∈ l1, (store j).install_raises = false) :
    installLoop store (l1 ++ r) =
      (l1.flatMap (okTrace store) ++ (installLoop store r).1,
       (installLoop store r).2) := by
  induction l1 with
  | nil => simp
  | cons j t ih =>
    rw [List.cons_append,
      installLoop_ok_cons store j (t ++ r) (hok j (List.mem_cons_self j t)),
      ih (fun x hx => hok x (List.mem_cons_of_mem j hx))]
    simp [List.append_assoc]

theorem okTrace_entity {store : Nat → Entity} {j : Nat} {ev : Ev}
    (h : ev ∈ okTrace store j) : ev.entity = j := by
  by_cases hc : (store j).conflicts_with = true
  · by_cases hs : (store j).install_succeeded = true
    · simp [okTrace, hc, hs] at h
      rcases h with rfl | rfl | rfl | rfl <;> rfl
    · simp [okTrace, hc, hs] at h
      rcases h with rfl | rfl | rfl <;> rfl
  · simp [okTrace, hc] at h
    rcases h with rfl | rfl <;> rfl

/-! ### Claims -/

/-- C1: admitting a non-constraint named entity whose name is registered to
a constraint entity (with a compatible link) promotes the existing entity in
place: its `constraint` flag becomes false, its `extras` becomes the sorted
deduplicated union of both entities' extras, and `add_requirement` returns
exactly the canonical existing entity (here by id) for rescanning. -/
theorem add_requirement_promotes_constraint (s : RequirementSet) (e : Entity)
    (rid exId : Nat) (parent : Option String) (xr : Option (List String))
    (hm : e.match_markers xr = true)
    (hw : wheelUnsupported e.link = false)
    (hname : e.name ≠ "")
    (hex : s.get_requirement e.name = some exId)
    (hcon : (s.store exId).constraint = true)
    (hinc : e.constraint = false)
    (hlink : linkConflict e.link (s.store exId).link = false)
    (hpar : ∀ p, parent = some p → p ≠ "" → ∃ pid, s.get_requirement p = some pid) :
    (s.add_requirement e rid parent xr).2 = .ok [exId] ∧
    ((s.add_requirement e rid parent xr).1.store exId).constraint = false ∧
    ((s.add_requirement e rid parent xr).1.store exId).extras
      = extrasUnion (s.store exId).extras e.extras ∧
    List.Pairwise (fun x y => strLeb x y = true)
      ((s.add_requirement e rid parent xr).1.store exId).extras ∧
    ((s.add_requirement e rid parent xr).1.store exId).extras.Nodup ∧
    ∀ x, x ∈ ((s.add_requirement e rid parent xr).1.store exId).extras ↔
      x ∈ (s.store exId).extras ∨ x ∈ e.extras := by
  have step : s.add_requirement e rid parent xr =
      finishEdge (promotedSet s exId e) exId [exId] parent := by
    unfold RequirementSet.add_requirement
    simp [hm, hw, hname, hex, hcon, hinc, hlink, promotedSet, promoted, inherit]
  have hpar' : ∀ p, parent = some p → p ≠ "" →
      ∃ pid, (promotedSet s exId e).get_requirement p = some pid := by
    intro p hp hne
    obtain ⟨pid, hpid⟩ := hpar p hp hne
    exact ⟨pid, by rw [get_requirement_congr rfl rfl p]; exact hpid⟩
  obtain ⟨h2, hst, -, -, -, -⟩ := finishEdge_ok (promotedSet s exId e) exId [exId] parent hpar'
  rw [step, h2, hst]
  have hread : (promotedSet s exId e).store exId = promoted s exId e := by
    simp [promotedSet, storeSet]
  rw [hread]
  refine ⟨rfl, rfl, rfl, extrasUnion_sorted _ _, extrasUnion_nodup _ _, ?_⟩
  intro x
  exact mem_extrasUnion

/-- Witness for C1 at a concrete state: the constraint `pkg` (extras
`["a"]`) is promoted by an incoming `pkg` with extras `["b"]`. -/
theorem add_requirement_promotes_constraint_wit :
    wSetPromo.get_requirement "pkg" = some 0 ∧
    (wSetPromo.store 0).constraint = true ∧
    (wSetPromo.add_requirement entIncoming 7 none none).2 = .ok [0] ∧
    ((wSetPromo.add_requirement entIncoming 7 none none).1.store 0).constraint = false ∧
    ((wSetPromo.add_requirement entIncoming 7 none none).1.store 0).extras = ["a", "b"] := by
  have h := add_requirement_promotes_constraint wSetPromo entIncoming 7 0 none none
    rfl rfl (by decide) rfl rfl rfl rfl (fun p hp _ => Option.noConfusion hp)
  refine ⟨rfl, rfl, h.1, h.2.1, ?_⟩
  rw [h.2.2.1]
  decide

/-- C2: admitting a direct requirement (no parent) whose name is held by a
non-constraint entity with equal extras and a differing specifier raises the
Duplicate-Requirement error and leaves the whole state unmodified; the same
admission as a transitive dependency of a registered parent succeeds (no
error), only appending the dependency edge. -/
theorem add_requirement_double_requirement (s : RequirementSet) (e : Entity)
    (rid exId : Nat) (xr : Option (List String))
    (hm : e.match_markers xr = true)
    (hw : wheelUnsupported e.link = false)
    (hname : e.name ≠ "")
    (hex : s.get_requirement e.name = some exId)
    (hexcon : (s.store exId).constraint = false)
    (hextras : (s.store exId).extras = e.extras)
    (hspec : (s.store exId).specifier ≠ e.specifier) :
    s.add_requirement e rid none xr = (s, .error (.doubleRequirement e.name)) ∧
    ∀ p pid, p ≠ "" → s.get_requirement p = some pid →
      s.add_requirement e rid (some p) xr =
        ({ s with dependencies := depAppend s.dependencies pid exId }, .ok []) := by
  constructor
  · unfold RequirementSet.add_requirement
    simp [hm, hw, hname, hex, hexcon, hextras, hspec, inherit]
  · intro p pid hp hpid
    unfold RequirementSet.add_requirement
    simp [hm, hw, hname, hex, hexcon, inherit, finishEdge, hp, hpid]

/-- Witness for C2: `pkg==2.0` against registered `pkg==1.0`, directly and
then as a dependency of `other`. -/
theorem add_requirement_double_requirement_wit :
    wSetDup.add_requirement entDup2 7 none none
      = (wSetDup, .error (.doubleRequirement "pkg")) ∧
    wSetDup.add_requirement entDup2 7 (some "other") none
      = ({ wSetDup with dependencies := depAppend wSetDup.dependencies 1 0 }, .ok []) := by
  have h := add_requirement_double_requirement wSetDup entDup2 7 0 none
    rfl rfl (by decide) rfl rfl rfl (by decide)
  exact ⟨h.1, h.2 "other" 1 (by decide) rfl⟩

/-- C4: when an incoming non-constraint entity would promote an existing
constraint but carries a link that does not match the existing entity's
link, the incoming entity is appended to the cleanup set, admission fails
with the Constraint-Conflict error, and the registry entry keeps
`constraint = true`, unchanged. -/
theorem add_requirement_constraint_conflict (s : RequirementSet) (e : Entity)
    (rid exId : Nat) (parent : Option String) (xr : Option (List String))
    (hm : e.match_markers xr = true)
    (hw : wheelUnsupported e.link = false)
    (hname : e.name ≠ "")
    (hex : s.get_requirement e.name = some exId)
    (hcon : (s.store exId).constraint = true)
    (hinc : e.constraint = false)
    (hlink : linkConflict e.link (s.store exId).link = true)
    (hfresh : rid ≠ exId) :
    (s.add_requirement e rid parent xr).2 = .error (.constraintConflict e.name) ∧
    (s.add_requirement e rid parent xr).1.reqs_to_cleanup
      = s.reqs_to_cleanup ++ [rid] ∧
    (s.add_requirement e rid parent xr).1.store exId = s.store exId ∧
    ((s.add_requirement e rid parent xr).1.store exId).constraint = true ∧
    (s.add_requirement e rid parent xr).1.requirements = s.requirements := by
  unfold RequirementSet.add_requirement
  simp [hm, hw, hname, hex, hcon, hinc, hlink, inherit, storeSet, Ne.symm hfresh]

/-- Witness for C4: a linked constraint `pkg` meets an incoming `pkg` from a
different path. -/
theorem add_requirement_constraint_conflict_wit :
    (wSetLink.add_requirement entLinkB 7 none none).2
      = .error (.constraintConflict "pkg") ∧
    (wSetLink.add_requirement entLinkB 7 none none).1.reqs_to_cleanup = [7] ∧
    ((wSetLink.add_requirement entLinkB 7 none none).1.store 0).constraint = true := by
  have h := add_requirement_constraint_conflict wSetLink entLinkB 7 0 none none
    rfl rfl (by decide) rfl rfl rfl (by decide) (by decide)
  exact ⟨h.1, h.2.1, h.2.2.2.1⟩

/-- C10: admitting a named entity over an existing non-constraint entity,
when the Duplicate-Requirement check does not fire, returns `[]` and leaves
the state untouched except that a dependency edge to the canonical existing
entity is appended when a parent is given; the incoming entity's specifier
and extras are discarded. -/
theorem add_requirement_merge_noop (s : RequirementSet) (e : Entity)
    (rid exId : Nat) (xr : Option (List String))
    (hm : e.match_markers xr = true)
    (hw : wheelUnsupported e.link = false)
    (hname : e.name ≠ "")
    (hex : s.get_requirement e.name = some exId)
    (hexcon : (s.store exId).constraint = false)
    (hnodup : (s.store exId).extras = e.extras → (s.store exId).specifier = e.specifier) :
    s.add_requirement e rid none xr = (s, .ok []) ∧
    ∀ p pid, p ≠ "" → s.get_requirement p = some pid →
      s.add_requirement e rid (some p) xr =
        ({ s with dependencies := depAppend s.dependencies pid exId }, .ok []) := by
  constructor
  · unfold RequirementSet.add_requirement
    by_cases hx : (s.store exId).extras = e.extras
    · simp [hm, hw, hname, hex, hexcon, hx, hnodup hx, inherit, finishEdge]
    · simp [hm, hw, hname, hex, hexcon, hx, inherit, finishEdge]
  · intro p pid hp hpid
    unfold RequirementSet.add_requirement
    simp [hm, hw, hname, hex, hexcon, inherit, finishEdge, hp, hpid]

/-- Witness for C10: re-admitting `pkg==1.0` directly is a no-op; admitting
it under parent `other` only appends the edge. -/
theorem add_requirement_merge_noop_wit :
    wSetDup.add_requirement entDup 7 none none = (wSetDup, .ok []) ∧
    wSetDup.add_requirement entDup 7 (some "other") none
      = ({ wSetDup with dependencies := depAppend wSetDup.dependencies 1 0 }, .ok []) := by
  have h := add_requirement_merge_noop wSetDup entDup 7 0 none
    rfl rfl (by decide) rfl rfl (fun _ => rfl)
  exact ⟨h.1, h.2 "other" 1 (by decide) rfl⟩

/-- C9 (amended): an unnamed entity is appended to the unnamed-requirements
sequence and `[entity]` is returned; it is excluded from name-based
deduplication (registry, aliases and dependency map untouched) — but it does
NOT appear in the computed install order, which only schedules registry
entities and their recorded dependencies. -/
theorem add_requirement_unnamed (s : RequirementSet) (e : Entity) (rid : Nat)
    (parent : Option String) (xr : Option (List String))
    (hm : e.match_markers xr = true)
    (hw : wheelUnsupported e.link = false)
    (hname : e.name = "")
    (hfresh : rid ∉ allNodes s) :
    (s.add_requirement e rid parent xr).2 = .ok [rid] ∧
    (s.add_requirement e rid parent xr).1.unnamed_requirements
      = s.unnamed_requirements ++ [rid] ∧
    (s.add_requirement e rid parent xr).1.requirements = s.requirements ∧
    (s.add_requirement e rid parent xr).1.requirement_aliases
      = s.requirement_aliases ∧
    (s.add_requirement e rid parent xr).1.dependencies = s.dependencies ∧
    rid ∉ (s.add_requirement e rid parent xr).1.toInstall := by
  have heq : s.add_requirement e rid parent xr =
      ({ s with
          store := storeSet s.store rid (inherit s e parent)
          unnamed_requirements := s.unnamed_requirements ++ [rid] }, .ok [rid]) := by
    unfold RequirementSet.add_requirement
    simp [hm, hw, hname]
  rw [heq]
  refine ⟨rfl, rfl, rfl, rfl, rfl, ?_⟩
  intro hc
  exact hfresh (toInstall_subset_allNodes
    { s with
      store := storeSet s.store rid (inherit s e parent)
      unnamed_requirements := s.unnamed_requirements ++ [rid] } rid hc)

/-- Witness for C9 (amended): an unnamed entity admitted into `wSetDup`. -/
theorem add_requirement_unnamed_wit :
    (wSetDup.add_requirement entD 5 none none).2 = .ok [5] ∧
    (wSetDup.add_requirement entD 5 none none).1.unnamed_requirements = [5] ∧
    5 ∉ (wSetDup.add_requirement entD 5 none none).1.toInstall := by
  have h := add_requirement_unnamed wSetDup entD 5 none none rfl rfl rfl (by decide)
  exact ⟨h.1, h.2.1, h.2.2.2.2.2⟩

/-- C9 counterexample: the claim that an unnamed entity "still appears in
the computed install order" fails — at this concrete state the unnamed
entity is admitted (returned as `[5]`, appended to the unnamed sequence)
yet absent from the install order. -/
theorem unnamed_not_scheduled_counterexample :
    (wSetDup.add_requirement entD 5 none none).2 = .ok [5] ∧
    5 ∈ (wSetDup.add_requirement entD 5 none none).1.unnamed_requirements ∧
    5 ∉ (wSetDup.add_requirement entD 5 none none).1.toInstall := by
  refine ⟨rfl, ?_, ?_⟩
  · decide
  · decide

/-- C7: an entity with `satisfied_by` set, or whose `constraint` flag is
still true, never appears in the computed install order (and computing the
order is a total function: no error is raised). -/
theorem toInstall_skips_satisfied_and_constraint (s : RequirementSet) (i : Nat)
    (h : (s.store i).satisfied_by = true ∨ (s.store i).constraint = true) :
    i ∉ s.toInstall := by
  intro hc
  have hskip := toInstall_nonskip s i hc
  rcases h with h | h <;> simp [skipB, h] at hskip

/-- Witness for C7: the satisfied entity `s` of `exSet` is reachable from
the scheduled root `p` yet omitted. -/
theorem toInstall_skips_satisfied_and_constraint_wit :
    ((exSet.store 1).satisfied_by = true ∨ (exSet.store 1).constraint = true) ∧
    1 ∉ exSet.toInstall :=
  ⟨Or.inl rfl, toInstall_skips_satisfied_and_constraint exSet 1 (Or.inl rfl)⟩

/-- C6: the scheduler terminates on every dependency graph — cycles
included — in the sense that the fuelled embedding is stable at the
canonical budget (`bigFuel`): any larger budget computes the same order;
and each entity appears at most once in the output, however many parents
depend on it. -/
theorem toInstall_terminates_unique (s : RequirementSet) (extra : Nat) :
    s.toInstallFuel (bigFuel s + extra) = s.toInstall ∧ s.toInstall.Nodup :=
  ⟨toInstallFuel_stable s extra, toInstall_nodup s⟩

/-- C3 (amended): on a cycle-free dependency graph the computed order never
places an entity before a dependency reachable through recorded edges all of
whose endpoints are non-skipped: for emitted `P` and `C` with `C` reachable
from `P` through such edges, `C` precedes `P`.  (As literally stated — with
reachability through arbitrary recorded edges — the claim fails when the
path crosses a skipped entity; see `toInstall_raw_reach_counterexample`.) -/
theorem toInstall_topological (s : RequirementSet)
    (hacyc : ∀ a, ¬ Relation.TransGen (Edge s) a a)
    (P C : Nat) (hP : P ∈ s.toInstall) (_hC : C ∈ s.toInstall)
    (hreach : Relation.TransGen (NSEdge s) P C) :
    pos s.toInstall C < pos s.toInstall P := by
  have haux : ∀ X, Relation.TransGen (NSEdge s) P X →
      X ∈ s.toInstall ∧ pos s.toInstall X < pos s.toInstall P := by
    intro X hX
    induction hX with
    | single h => exact toInstall_edge_order s hacyc P hP _ h
    | tail hr hlast ih =>
      obtain ⟨hbm, hbl⟩ := ih
      obtain ⟨hcm, hcl⟩ := toInstall_edge_order s hacyc _ hbm _ hlast
      exact ⟨hcm, lt_trans hcl hbl⟩
  exact (haux C hreach).2

/-- Witness for C3 (amended): the acyclic graph `a → b` with nothing
skipped schedules `b` strictly before `a`. -/
theorem toInstall_topological_wit :
    (∀ a, ¬ Relation.TransGen (Edge exSet2) a a) ∧
    0 ∈ exSet2.toInstall ∧ 1 ∈ exSet2.toInstall ∧
    pos exSet2.toInstall 1 < pos exSet2.toInstall 0 := by
  have hedge : ∀ a b, Edge exSet2 a b → a = 0 ∧ b = 1 := by
    intro a b h
    have hd : exSet2.dependencies = [(0, [1])] := rfl
    unfold Edge depsOf at h
    rw [hd] at h
    by_cases ha : (0 : Nat) = a
    · rw [lookupKV, if_pos ha] at h
      simp at h
      exact ⟨ha.symm, h⟩
    · rw [lookupKV, if_neg ha, lookupKV] at h
      simp at h
  have hacyc : ∀ a, ¬ Relation.TransGen (Edge exSet2) a a := by
    intro a h
    have hlt : ∀ x y, Relation.TransGen (Edge exSet2) x y → x = 0 ∧ y = 1 := by
      intro x y hxy
      induction hxy with
      | single h' => exact hedge _ _ h'
      | tail hr hlast ih =>
        obtain ⟨hx0, hb1⟩ := ih
        obtain ⟨hb0, hy1⟩ := hedge _ _ hlast
        exact absurd (hb1 ▸ hb0) (by decide)
    obtain ⟨h0, h1⟩ := hlt a a h
    rw [h0] at h1
    exact absurd h1 (by decide)
  refine ⟨hacyc, by decide, by decide,
    toInstall_topological exSet2 hacyc 0 1 (by decide) (by decide) ?_⟩
  exact Relation.TransGen.single
    ⟨(by decide : (1 : Nat) ∈ depsOf exSet2.dependencies 0), by decide, by decide⟩

/-- C3 counterexample: in the cycle-free state `exSet` (`p → s → c` with
`s` satisfied), `c` is reachable from `p` through recorded edges and both
are emitted, yet `c` comes after `p` in the order: the claim as literally
stated is false. -/
theorem toInstall_raw_reach_counterexample :
    (∀ a, ¬ Relation.TransGen (Edge exSet) a a) ∧
    0 ∈ exSet.toInstall ∧ 2 ∈ exSet.toInstall ∧
    Relation.TransGen (Edge exSet) 0 2 ∧
    ¬ pos exSet.toInstall 2 < pos exSet.toInstall 0 := by
  have hedge : ∀ a b, Edge exSet a b → (a = 0 ∧ b = 1) ∨ (a = 1 ∧ b = 2) := by
    intro a b h
    have hd : exSet.dependencies = [(0, [1]), (1, [2])] := rfl
    unfold Edge depsOf at h
    rw [hd] at h
    by_cases ha0 : (0 : Nat) = a
    · rw [lookupKV, if_pos ha0] at h
      simp at h
      exact Or.inl ⟨ha0.symm, h⟩
    · rw [lookupKV, if_neg ha0] at h
      by_cases ha1 : (1 : Nat) = a
      · rw [lookupKV, if_pos ha1] at h
        simp at h
        exact Or.inr ⟨ha1.symm, h⟩
      · rw [lookupKV, if_neg ha1, lookupKV] at h
        simp at h
  have hmono : ∀ x y, Relation.TransGen (Edge exSet) x y → x < y := by
    intro x y hxy
    induction hxy with
    | single h' => rcases hedge _ _ h' with ⟨rfl, rfl⟩ | ⟨rfl, rfl⟩ <;> omega
    | tail hr hlast ih =>
      rcases hedge _ _ hlast with ⟨rfl, rfl⟩ | ⟨rfl, rfl⟩ <;> omega
  have hacyc : ∀ a, ¬ Relation.TransGen (Edge exSet) a a :=
    fun a h => absurd (hmono a a h) (lt_irrefl a)
  refine ⟨hacyc, by decide, by decide, ?_, by decide⟩
  exact Relation.TransGen.tail
    (Relation.TransGen.single (by decide : (1 : Nat) ∈ depsOf exSet.dependencies 0))
    (by decide : (2 : Nat) ∈ depsOf exSet.dependencies 1)

/-- C5: when the loop reaches an entity whose `conflicts_with` is set and
whose install raises without reporting success, the paired uninstall is
rolled back, the failure propagates (the loop result is the failing id),
and no entity after the failing one is processed: the trace consists
exactly of the earlier entities' events followed by
uninstall/attempt/rollback for the failing one. -/
theorem install_rollback_on_failure (s : RequirementSet) (l1 l2 : List Nat)
    (i : Nat)
    (horder : s.toInstall = l1 ++ i :: l2)
    (hok : ∀ j ∈ l1, (s.store j).install_raises = false)
    (hconf : (s.store i).conflicts_with = true)
    (hfail : (s.store i).install_raises = true)
    (hnosucc : (s.store i).install_succeeded = false) :
    s.install = (l1.flatMap (okTrace s.store) ++
      [Ev.uninstall i, Ev.installAttempt i, Ev.rollback i], some i) ∧
    Ev.rollback i ∈ (s.install).1 ∧
    (s.install).2 = some i ∧
    ∀ j ∈ l2, j ∉ l1 → j ≠ i → ∀ ev ∈ (s.install).1, ev.entity ≠ j := by
  have htr : s.install = (l1.flatMap (okTrace s.store) ++
      [Ev.uninstall i, Ev.installAttempt i, Ev.rollback i], some i) := by
    unfold RequirementSet.install
    rw [horder, installLoop_append_ok s.store l1 (i :: l2) hok,
      installLoop_fail_cons s.store i l2 hfail]
    simp [hconf, hnosucc]
  refine ⟨htr, ?_, ?_, ?_⟩
  · rw [htr]
    simp
  · rw [htr]
  · intro j hj2 hjl1 hji ev hev
    rw [htr] at hev
    rcases List.mem_append.1 hev with h' | h'
    · obtain ⟨q, hq, hevq⟩ := List.mem_flatMap.1 h'
      rw [okTrace_entity hevq]
      exact fun hc => hjl1 (hc ▸ hq)
    · simp only [List.mem_cons, List.mem_singleton] at h'
      rcases h' with rfl | rfl | rfl | h'
      · exact fun hc => hji hc.symm
      · exact fun hc => hji hc.symm
      · exact fun hc => hji hc.symm
      · exact absurd h' (List.not_mem_nil ev)

/-- Witness for C5: in `failSet`, entity 0 conflicts and its install
raises; its uninstall is rolled back, the failure propagates and entity 1
is never processed. -/
theorem install_rollback_on_failure_wit :
    failSet.install = ([Ev.uninstall 0, Ev.installAttempt 0, Ev.rollback 0],
      some 0) := by
  have h := install_rollback_on_failure failSet [] [1] 0 (by decide)
    (fun j hj => absurd hj (List.not_mem_nil j)) rfl rfl rfl
  simpa using h.1

/-- C8 (amended): after each install attempt that does not raise, the
entity's temporary source is removed immediately (its `removeTemp` event is
inside its own `okTrace`, before any later entity's events, not deferred);
but when the install attempt raises, the exception propagates first and the
temporary source is NOT removed — the claim's "regardless of whether the
attempt succeeded or failed" is false (see
`install_removeTemp_counterexample`). -/
theorem install_removeTemp_after_attempt (s : RequirementSet) (l1 l2 : List Nat)
    (i : Nat)
    (horder : s.toInstall = l1 ++ i :: l2)
    (hok : ∀ j ∈ l1, (s.store j).install_raises = false) :
    ((s.store i).install_raises = false →
      s.install = (l1.flatMap (okTrace s.store) ++ okTrace s.store i ++
        (installLoop s.store l2).1, (installLoop s.store l2).2) ∧
      Ev.removeTemp i ∈ okTrace s.store i) ∧
    ((s.store i).install_raises = true → Ev.removeTemp i ∉ (s.install).1) := by
  constructor
  · intro hno
    constructor
    · unfold RequirementSet.install
      rw [horder, installLoop_append_ok s.store l1 (i :: l2) hok,
        installLoop_ok_cons s.store i l2 hno]
      simp [List.append_assoc]
    · simp [okTrace]
  · intro hr
    have htr : (s.install).1 = l1.flatMap (okTrace s.store) ++
        ((if (s.store i).conflicts_with then [Ev.uninstall i] else []) ++
         [Ev.installAttempt i] ++
         (if (s.store i).conflicts_with && !(s.store i).install_succeeded
           then [Ev.rollback i] else [])) := by
      unfold RequirementSet.install
      rw [horder, installLoop_append_ok s.store l1 (i :: l2) hok,
        installLoop_fail_cons s.store i l2 hr]
    rw [htr]
    intro hc
    rcases List.mem_append.1 hc with h' | h'
    · obtain ⟨q, hq, hevq⟩ := List.mem_flatMap.1 h'
      have hqi : i = q := okTrace_entity hevq
      rw [← hqi] at hq
      simp [hok i hq] at hr
    · by_cases hcf : (s.store i).conflicts_with = true
      · by_cases hsu : (s.store i).install_succeeded = true
        · simp [hcf, hsu] at h'
        · simp [hcf, hsu] at h'
      · simp [hcf] at h'

/-- Witness for C8 (amended): entity 0 of `failSet` raises, so its
temporary source is not removed. -/
theorem install_removeTemp_after_attempt_wit :
    Ev.removeTemp 0 ∉ (failSet.install).1 :=
  (install_removeTemp_after_attempt failSet [] [1] 0 (by decide)
    (fun j hj => absurd hj (List.not_mem_nil j))).2 rfl

/-- C8 counterexample: entity 0's install attempt fails (raises), yet no
`removeTemp` event for it occurs — removal is not performed "regardless of
whether that install attempt succeeded or failed". -/
theorem install_removeTemp_counterexample :
    (failSet.store 0).install_raises = true ∧
    0 ∈ failSet.toInstall ∧
    Ev.removeTemp 0 ∉ (failSet.install).1 := by
  refine ⟨rfl, by decide, by decide⟩

end PipReq
